import Mathlib

/-!
Verification of the 2048 game-state engine (`src/2048_RL/env_2048.py`,
class `Game2048Env`).  The board is an N×N grid of natural numbers with `0`
for empty; actions are encoded 0=Up, 1=Down, 2=Left, 3=Right.  The engine is
embedded shallowly: the board is a list of rows, the numpy random generator
is abstracted as an explicit state threaded through every spawn, and `step`
returns an `Except` value so that the assertion on out-of-range actions is a
visible error branch.
-/

namespace Game2048

/-- A board is a list of rows of tile values; `0` denotes an empty cell. -/
abbrev Board := List (List Nat)

/-- Cell read, `board[r][c]`, with `0` outside the stored rows. -/
def getCell (b : Board) (r c : Nat) : Nat := (b.getD r []).getD c 0

/-- Cell write, `board[r][c] = v` (a no-op outside the stored rows,
which matches the fact that the source only ever writes in bounds). -/
def setCell (b : Board) (r c : Nat) (v : Nat) : Board :=
  b.set r ((b.getD r []).set c v)

/-- The merge scan of `_compress_and_merge`: walk the zero-free line, fuse
each adjacent equal pair into one cell of twice the value, add the fused
value to the gained reward, and skip the second element of the pair so that
no cell merges twice.  Returns the merged line and the gained reward. -/
def mergeScan : List Nat → List Nat × Nat
  | [] => ([], 0)
  | [a] => ([a], 0)
  | a :: b :: rest =>
    if a = b then
      let p := mergeScan rest
      (a * 2 :: p.1, a * 2 + p.2)
    else
      let p := mergeScan (b :: rest)
      (a :: p.1, p.2)

/-- `Game2048Env._compress_and_merge`: drop zeros, merge-scan, pad the result
with zeros back to the line's length; returns the new line and the reward
gained on that line. -/
def compressAndMerge (line : List Nat) : List Nat × Nat :=
  let nz := line.filter (fun v => v ≠ 0)
  if nz = [] then (List.replicate line.length 0, 0)
  else
    let p := mergeScan nz
    (p.1 ++ List.replicate (line.length - p.1.length) 0, p.2)

/-- The transform used for Down and Right: the source slices the line
reversed (`board[::-1, c]`, `board[r, ::-1]`), transforms it and writes it
back through the same reversed slice. -/
def cmRev (line : List Nat) : List Nat × Nat :=
  let p := compressAndMerge line.reverse
  (p.1.reverse, p.2)

/-- Column view of the board: entry `c` of the result is column `c`
(top to bottom), i.e. `board[:, c]` for each `c < n`. -/
def transposeN (n : Nat) (b : Board) : Board :=
  (List.range n).map (fun c => b.map (fun row => row.getD c 0))

/-- `Game2048Env._move`: apply the line transform to every row or column in
the direction given by the action (0=Up, 1=Down, 2=Left, 3=Right), and
accumulate the gained reward over all lines.  Any other action value falls
through the `elif` chain of the source and changes nothing. -/
def applyMove (n : Nat) (a : Nat) (b : Board) : Board × Nat :=
  match a with
  | 0 =>
    let cols := (transposeN n b).map compressAndMerge
    (transposeN n (cols.map Prod.fst), (cols.map Prod.snd).sum)
  | 1 =>
    let cols := (transposeN n b).map cmRev
    (transposeN n (cols.map Prod.fst), (cols.map Prod.snd).sum)
  | 2 =>
    let rows := b.map compressAndMerge
    (rows.map Prod.fst, (rows.map Prod.snd).sum)
  | 3 =>
    let rows := b.map cmRev
    (rows.map Prod.fst, (rows.map Prod.snd).sum)
  | _ => (b, 0)

/-- `Game2048Env._can_move`: true when some cell is zero, or some row holds
two horizontally adjacent equal cells, or some column holds two vertically
adjacent equal cells. -/
def canMove (n : Nat) (b : Board) : Bool :=
  (b.any fun row => row.any fun v => v == 0) ||
  ((List.range n).any fun r => (List.range (n - 1)).any fun c =>
      getCell b r c == getCell b r (c + 1)) ||
  ((List.range n).any fun c => (List.range (n - 1)).any fun r =>
      getCell b r c == getCell b (r + 1) c)

/-- Abstract interface to the engine-owned pseudo-random generator
(`np.random.RandomState` in the source, a library external to the repo):
`seedInit k` models `RandomState.seed(k)`, `randint n s` models
`rng.randint(n)` (an index into `[0, n)` plus the advanced state), and
`isFour s` models `rng.rand() < 0.1` (whether the spawned tile is a 4). -/
structure RngImpl (σ : Type) where
  seedInit : Nat → σ
  randint : Nat → σ → Nat × σ
  isFour : σ → Bool × σ

/-- The contract of `rng.randint(n)`: the returned index is below `n`. -/
def RngImpl.Wf {σ : Type} (impl : RngImpl σ) : Prop :=
  ∀ (n : Nat) (s : σ), 0 < n → (impl.randint n s).1 < n

/-- The mutable state of `Game2048Env`: the board size, the board, the
generator state and the `_done` flag. -/
structure EnvState (σ : Type) where
  boardSize : Nat
  board : Board
  rng : σ
  done : Bool
deriving DecidableEq

/-- `np.argwhere(board == 0)`: the positions of the empty cells in
row-major order. -/
def emptyPositions (b : Board) : List (Nat × Nat) :=
  ((List.range b.length).map (fun r =>
    (List.range (b.getD r []).length).filterMap (fun c =>
      if (b.getD r []).getD c 0 = 0 then some (r, c) else none))).flatten

/-- `Game2048Env._add_random_tile`: if the board has an empty cell, draw one
of them uniformly, then place a 4 there with probability 0.1 and a 2
otherwise; with no empty cell the call returns without touching anything. -/
def addRandomTile {σ : Type} (impl : RngImpl σ) (s : EnvState σ) : EnvState σ :=
  let emp := emptyPositions s.board
  if emp.isEmpty then s
  else
    let p := impl.randint emp.length s.rng
    let rc := emp.getD p.1 (0, 0)
    let q := impl.isFour p.2
    { s with board := setCell s.board rc.1 rc.2 (if q.1 then 4 else 2), rng := q.2 }

/-- `Game2048Env.__init__`: store the board size, build an all-zero board of
that size, store the generator (`rng0` stands for `RandomState(seed)`), and
clear `_done`.  The constructor performs no validation of the size. -/
def initE {σ : Type} (boardSize : Nat) (rng0 : σ) : EnvState σ :=
  { boardSize := boardSize
    board := List.replicate boardSize (List.replicate boardSize 0)
    rng := rng0
    done := false }

/-- `Game2048Env.reset`: reseed when a seed is given, zero the board, clear
`_done`, spawn two tiles, and return the new state with a copy of the
board. -/
def resetE {σ : Type} (impl : RngImpl σ) (s : EnvState σ) (seed : Option Nat) :
    EnvState σ × Board :=
  let rng0 := match seed with
    | some k => impl.seedInit k
    | none => s.rng
  let s1 : EnvState σ :=
    { boardSize := s.boardSize
      board := List.replicate s.boardSize (List.replicate s.boardSize 0)
      rng := rng0
      done := false }
  let s2 := addRandomTile impl s1
  let s3 := addRandomTile impl s2
  (s3, s3.board)

/-- The failure raised by the action-space assertion of `step`. -/
inductive StepErr where
  | invalidAction
deriving DecidableEq

/-- `Game2048Env.step`: assert the action is one of 0..3, return the board
unchanged with reward 0 when already done, otherwise move, zero the reward
and skip the spawn when the board did not change, spawn one tile when it
did, and recompute `_done` from the resulting board.  The result carries the
new engine state together with the returned observation, reward and
terminated flag. -/
def stepE {σ : Type} (impl : RngImpl σ) (s : EnvState σ) (a : Int) :
    Except StepErr (EnvState σ × Board × Nat × Bool) :=
  if 0 ≤ a ∧ a < 4 then
    if s.done then Except.ok (s, s.board, 0, true)
    else
      let mv := applyMove s.boardSize a.toNat s.board
      let reward := if mv.1 = s.board then 0 else mv.2
      let s1 : EnvState σ := { s with board := mv.1 }
      let s2 := if mv.1 = s.board then s1 else addRandomTile impl s1
      let s3 : EnvState σ := { s2 with done := !canMove s2.boardSize s2.board }
      Except.ok (s3, s3.board, reward, s3.done)
  else Except.error StepErr.invalidAction

/-- One run of an episode tail: thread the state through `stepE` for each
action, recording the observation, reward and terminated flag of every
successful call (a failed call leaves the state untouched). -/
def runTrace {σ : Type} (impl : RngImpl σ) : EnvState σ → List Int → List (Board × Nat × Bool)
  | _, [] => []
  | s, a :: rest =>
    match stepE impl s a with
    | Except.error _ => runTrace impl s rest
    | Except.ok (s', obs, r, d) => (obs, r, d) :: runTrace impl s' rest

/-- A concrete generator instance used to evaluate the engine on concrete
inputs: the state is a counter, `randint n` reduces the counter modulo `n`,
and the spawned tile is always a 2. -/
def implC : RngImpl Nat where
  seedInit := fun k => k
  randint := fun n s => (s % n, s + 1)
  isFour := fun s => (false, s + 1)

theorem implC_wf : implC.Wf := fun _ s h => Nat.mod_lt s h

/-- Sum of a measure `g` over a line. -/
def rowSumBy (g : Nat → Nat) (row : List Nat) : Nat := (row.map g).sum

/-- Sum of a measure `g` over every cell of a board. -/
def boardSumBy (g : Nat → Nat) (b : Board) : Nat := (b.map (rowSumBy g)).sum

/-- Total value of all tiles of a board. -/
def boardSum (b : Board) : Nat := boardSumBy (fun v => v) b

/-- Indicator of a nonzero cell. -/
def indNZ (v : Nat) : Nat := if v = 0 then 0 else 1

/-- Number of nonzero cells of a line. -/
def rowCountNZ (row : List Nat) : Nat := rowSumBy indNZ row

/-- Number of nonzero cells of a board. -/
def countNZ (b : Board) : Nat := boardSumBy indNZ b

theorem rowSumBy_nil (g : Nat → Nat) : rowSumBy g [] = 0 := rfl

theorem rowSumBy_cons (g : Nat → Nat) (x : Nat) (l : List Nat) :
    rowSumBy g (x :: l) = g x + rowSumBy g l := by
  simp [rowSumBy]

theorem rowSumBy_append (g : Nat → Nat) (l₁ l₂ : List Nat) :
    rowSumBy g (l₁ ++ l₂) = rowSumBy g l₁ + rowSumBy g l₂ := by
  simp [rowSumBy]

theorem rowSumBy_reverse (g : Nat → Nat) (l : List Nat) :
    rowSumBy g l.reverse = rowSumBy g l := by
  simp [rowSumBy, List.map_reverse, List.sum_reverse]

theorem rowSumBy_replicate_zero (g : Nat → Nat) (hg : g 0 = 0) (k : Nat) :
    rowSumBy g (List.replicate k 0) = 0 := by
  induction k with
  | zero => rfl
  | succ k ih => simp [List.replicate_succ, rowSumBy_cons, hg, ih]

theorem rowSumBy_id (row : List Nat) : rowSumBy (fun v => v) row = row.sum := by
  simp [rowSumBy, List.map_id']

theorem indNZ_le_one (v : Nat) : indNZ v ≤ 1 := by
  unfold indNZ; split <;> simp

theorem sum_map_add {α : Type} (f g : α → Nat) (l : List α) :
    (l.map fun x => f x + g x).sum = (l.map f).sum + (l.map g).sum := by
  induction l with
  | nil => rfl
  | cons x l ih => simp [ih]; omega

theorem sum_map_const_zero {α : Type} (l : List α) :
    (l.map fun _ => (0 : Nat)).sum = 0 := by
  induction l with
  | nil => rfl
  | cons x l ih => simp [ih]

/-- Summing `g` over the `n` leading entries of a line of length `n` reads
the whole line. -/
theorem range_getD_sum (g : Nat → Nat) :
    ∀ (row : List Nat) (n : Nat), row.length = n →
      ((List.range n).map (fun c => g (row.getD c 0))).sum = rowSumBy g row := by
  intro row
  induction row with
  | nil =>
    intro n hn
    simp at hn
    subst hn
    rfl
  | cons x xs ih =>
    intro n hn
    simp at hn
    subst hn
    rw [List.range_succ_eq_map, List.map_cons, List.map_map, List.sum_cons, rowSumBy_cons]
    congr 1
    have h2 : (List.range xs.length).map ((fun c => g ((x :: xs).getD c 0)) ∘ Nat.succ)
        = (List.range xs.length).map (fun c => g (xs.getD c 0)) := by
      apply List.map_congr_left
      intro c _
      simp [List.getD_cons_succ]
    rw [h2, ih xs.length rfl]

/-- Reading the board column-wise sums every cell exactly once, so the
column view has the same total measure as the board, provided every row has
the full width `n`. -/
theorem boardSumBy_transposeN (g : Nat → Nat) (n : Nat) :
    ∀ m : Board, (∀ row ∈ m, row.length = n) →
      boardSumBy g (transposeN n m) = boardSumBy g m := by
  intro m
  induction m with
  | nil =>
    intro _
    simp [transposeN, boardSumBy, List.map_map, Function.comp_def, rowSumBy_nil,
      sum_map_const_zero]
  | cons row m ih =>
    intro hm
    have hrow : row.length = n := hm row (List.mem_cons_self row m)
    have hm' : ∀ r ∈ m, r.length = n := fun r hr => hm r (List.mem_cons_of_mem row hr)
    have expand : boardSumBy g (transposeN n (row :: m))
        = ((List.range n).map
            (fun c => g (row.getD c 0) + rowSumBy g (m.map (fun r => r.getD c 0)))).sum := by
      simp [transposeN, boardSumBy, List.map_map, Function.comp_def, rowSumBy_cons]
    have expand' : boardSumBy g (transposeN n m)
        = ((List.range n).map (fun c => rowSumBy g (m.map (fun r => r.getD c 0)))).sum := by
      simp [transposeN, boardSumBy, List.map_map, Function.comp_def]
    rw [expand, sum_map_add, range_getD_sum g row n hrow, ← expand', ih hm']
    simp [boardSumBy, rowSumBy_cons]

/-- The merge scan conserves the total value of the line: fusing `v, v`
into `2v` keeps the sum. -/
theorem mergeScan_sum : ∀ l : List Nat, (mergeScan l).1.sum = l.sum
  | [] => by simp [mergeScan]
  | [a] => by simp [mergeScan]
  | a :: b :: rest => by
    by_cases h : a = b
    · have ih := mergeScan_sum rest
      simp [mergeScan, h, ih]
      omega
    · have ih := mergeScan_sum (b :: rest)
      simp [mergeScan, h, ih]

/-- The merge scan never lengthens the line. -/
theorem mergeScan_length_le : ∀ l : List Nat, (mergeScan l).1.length ≤ l.length
  | [] => by simp [mergeScan]
  | [a] => by simp [mergeScan]
  | a :: b :: rest => by
    by_cases h : a = b
    · have ih := mergeScan_length_le rest
      simp [mergeScan, h]
      omega
    · have ih := mergeScan_length_le (b :: rest)
      simp [mergeScan, h] at ih ⊢
      omega

/-- The merge scan never increases the number of nonzero entries. -/
theorem mergeScan_count_le : ∀ l : List Nat, rowCountNZ (mergeScan l).1 ≤ rowCountNZ l
  | [] => by simp [mergeScan]
  | [a] => by simp [mergeScan]
  | a :: b :: rest => by
    by_cases h : a = b
    · subst h
      have ih := mergeScan_count_le rest
      have hab : indNZ (a * 2) ≤ indNZ a + indNZ a := by
        by_cases ha : a = 0 <;> simp [indNZ, ha]
      have hms : mergeScan (a :: a :: rest)
          = (a * 2 :: (mergeScan rest).1, a * 2 + (mergeScan rest).2) := by
        simp [mergeScan]
      rw [hms]
      simp only [rowCountNZ, rowSumBy_cons] at ih ⊢
      omega
    · have ih := mergeScan_count_le (b :: rest)
      simp only [mergeScan, if_neg h, rowCountNZ, rowSumBy_cons] at ih ⊢
      omega

/-- Filtering by a test that only ever rejects elements of measure zero
keeps any additive measure of a line. -/
theorem filter_sumBy_of (g : Nat → Nat) (p : Nat → Bool)
    (hp : ∀ x, p x = false → g x = 0) (l : List Nat) :
    rowSumBy g (l.filter p) = rowSumBy g l := by
  induction l with
  | nil => rfl
  | cons x l ih =>
    rw [List.filter_cons]
    cases hx : p x with
    | false => rw [if_neg Bool.false_ne_true, ih, rowSumBy_cons, hp x hx, Nat.zero_add]
    | true => rw [if_pos rfl, rowSumBy_cons, rowSumBy_cons, ih]

/-- Dropping zeros does not change the sum of a line of naturals. -/
theorem filter_nz_sum (l : List Nat) : (l.filter (fun v => v ≠ 0)).sum = l.sum := by
  have h := filter_sumBy_of (fun v => v) (fun v => v ≠ 0)
    (fun x hx => by simpa using of_decide_eq_false hx) l
  simpa [rowSumBy_id] using h

/-- Dropping zeros does not change the number of nonzero entries. -/
theorem filter_nz_count (l : List Nat) :
    rowCountNZ (l.filter (fun v => v ≠ 0)) = rowCountNZ l :=
  filter_sumBy_of indNZ (fun v => v ≠ 0)
    (fun x hx => by simp [indNZ, of_decide_eq_false hx]) l

/-- The line transform keeps the length of the line. -/
theorem compressAndMerge_length (l : List Nat) : (compressAndMerge l).1.length = l.length := by
  simp only [compressAndMerge]
  by_cases h : l.filter (fun v => v ≠ 0) = []
  · rw [if_pos h]
    simp
  · rw [if_neg h]
    have h1 : (mergeScan (l.filter (fun v => v ≠ 0))).1.length
        ≤ (l.filter (fun v => v ≠ 0)).length := mergeScan_length_le _
    have h2 : (l.filter (fun v => v ≠ 0)).length ≤ l.length := List.length_filter_le _ _
    simp only [List.length_append, List.length_replicate]
    omega

/-- The line transform conserves the total value of the line. -/
theorem compressAndMerge_sum (l : List Nat) : (compressAndMerge l).1.sum = l.sum := by
  simp only [compressAndMerge]
  by_cases h : l.filter (fun v => v ≠ 0) = []
  · rw [if_pos h]
    have hz : l.sum = 0 := by rw [← filter_nz_sum l, h]; rfl
    simp [List.sum_replicate, hz]
  · rw [if_neg h]
    have h1 : (mergeScan (l.filter (fun v => v ≠ 0))).1.sum
        = (l.filter (fun v => v ≠ 0)).sum := mergeScan_sum _
    simp only [List.sum_append, List.sum_replicate, smul_zero, add_zero]
    rw [h1, filter_nz_sum]

/-- The line transform never increases the number of nonzero entries. -/
theorem compressAndMerge_count_le (l : List Nat) :
    rowCountNZ (compressAndMerge l).1 ≤ rowCountNZ l := by
  simp only [compressAndMerge]
  by_cases h : l.filter (fun v => v ≠ 0) = []
  · rw [if_pos h]
    simp [rowCountNZ, rowSumBy_replicate_zero indNZ (by simp [indNZ])]
  · rw [if_neg h]
    have h1 : rowCountNZ (mergeScan (l.filter (fun v => v ≠ 0))).1
        ≤ rowCountNZ (l.filter (fun v => v ≠ 0)) := mergeScan_count_le _
    rw [filter_nz_count] at h1
    calc rowCountNZ ((mergeScan (l.filter (fun v => v ≠ 0))).1 ++
          List.replicate (l.length - (mergeScan (l.filter (fun v => v ≠ 0))).1.length) 0)
        = rowCountNZ (mergeScan (l.filter (fun v => v ≠ 0))).1 := by
          rw [rowCountNZ, rowSumBy_append, rowSumBy_replicate_zero indNZ (by simp [indNZ]),
            Nat.add_zero]
          rfl
      _ ≤ rowCountNZ l := h1

theorem cmRev_length (l : List Nat) : (cmRev l).1.length = l.length := by
  simp [cmRev, compressAndMerge_length]

theorem cmRev_sum (l : List Nat) : (cmRev l).1.sum = l.sum := by
  simp [cmRev, List.sum_reverse, compressAndMerge_sum]

theorem cmRev_count_le (l : List Nat) : rowCountNZ (cmRev l).1 ≤ rowCountNZ l := by
  rw [cmRev]
  simp only [rowCountNZ] at *
  rw [rowSumBy_reverse]
  calc rowSumBy indNZ (compressAndMerge l.reverse).1
      ≤ rowSumBy indNZ l.reverse := compressAndMerge_count_le l.reverse
    _ = rowSumBy indNZ l := rowSumBy_reverse indNZ l

theorem boardSumBy_cons (g : Nat → Nat) (row : List Nat) (b : Board) :
    boardSumBy g (row :: b) = rowSumBy g row + boardSumBy g b := by
  simp [boardSumBy]

theorem boardSum_transposeN (n : Nat) (m : Board) (h : ∀ row ∈ m, row.length = n) :
    boardSum (transposeN n m) = boardSum m := boardSumBy_transposeN _ n m h

theorem countNZ_transposeN (n : Nat) (m : Board) (h : ∀ row ∈ m, row.length = n) :
    countNZ (transposeN n m) = countNZ m := boardSumBy_transposeN indNZ n m h

theorem transposeN_row_length (n : Nat) (b : Board) :
    ∀ row ∈ transposeN n b, row.length = b.length := by
  intro row h
  simp only [transposeN, List.mem_map] at h
  obtain ⟨c, _, rfl⟩ := h
  simp

/-- Mapping a sum-conserving line transform over the rows keeps the board
sum. -/
theorem boardSum_map_lines (f : List Nat → List Nat × Nat)
    (hf : ∀ l, (f l).1.sum = l.sum) (b : Board) :
    boardSum ((b.map f).map Prod.fst) = boardSum b := by
  rw [List.map_map]
  simp only [boardSum, boardSumBy, List.map_map]
  apply congrArg List.sum
  apply List.map_congr_left
  intro r _
  simp [Function.comp_def, rowSumBy_id, hf r]

/-- Mapping a count-non-increasing line transform over the rows cannot
increase the number of nonzero cells. -/
theorem countNZ_map_lines_le (f : List Nat → List Nat × Nat)
    (hf : ∀ l, rowCountNZ (f l).1 ≤ rowCountNZ l) (b : Board) :
    countNZ ((b.map f).map Prod.fst) ≤ countNZ b := by
  rw [List.map_map]
  simp only [countNZ, boardSumBy, List.map_map]
  apply List.sum_le_sum
  intro r _
  exact hf r

/-- Rows produced by mapping a length-preserving line transform over the
column view all have the board's height. -/
theorem map_lines_row_length (f : List Nat → List Nat × Nat)
    (hf : ∀ l, (f l).1.length = l.length) (n : Nat) (b : Board) (hlen : b.length = n) :
    ∀ row ∈ ((transposeN n b).map f).map Prod.fst, row.length = n := by
  intro row h
  rw [List.map_map] at h
  simp only [List.mem_map, Function.comp_apply] at h
  obtain ⟨l, hl, rfl⟩ := h
  rw [hf l, transposeN_row_length n b l hl, hlen]

/-- C10 move part: the move transform conserves the total board sum for
every action value, on any well-formed n×n board. -/
theorem applyMove_sum (n : Nat) (a : Nat) (b : Board)
    (hlen : b.length = n) (hrow : ∀ row ∈ b, row.length = n) :
    boardSum (applyMove n a b).1 = boardSum b := by
  have hb : boardSum (transposeN n b) = boardSum b := boardSum_transposeN n b hrow
  rcases a with _ | _ | _ | _ | a
  · show boardSum (transposeN n (((transposeN n b).map compressAndMerge).map Prod.fst))
        = boardSum b
    rw [boardSum_transposeN n _
        (map_lines_row_length compressAndMerge compressAndMerge_length n b hlen),
      boardSum_map_lines compressAndMerge compressAndMerge_sum, hb]
  · show boardSum (transposeN n (((transposeN n b).map cmRev).map Prod.fst)) = boardSum b
    rw [boardSum_transposeN n _ (map_lines_row_length cmRev cmRev_length n b hlen),
      boardSum_map_lines cmRev cmRev_sum, hb]
  · exact boardSum_map_lines compressAndMerge compressAndMerge_sum b
  · exact boardSum_map_lines cmRev cmRev_sum b
  · rfl

/-- The move transform never increases the number of nonzero cells: a slide
keeps tiles and a merge removes one. -/
theorem applyMove_count_le (n : Nat) (a : Nat) (b : Board)
    (hlen : b.length = n) (hrow : ∀ row ∈ b, row.length = n) :
    countNZ (applyMove n a b).1 ≤ countNZ b := by
  have hb : countNZ (transposeN n b) = countNZ b := countNZ_transposeN n b hrow
  rcases a with _ | _ | _ | _ | a
  · show countNZ (transposeN n (((transposeN n b).map compressAndMerge).map Prod.fst))
        ≤ countNZ b
    rw [countNZ_transposeN n _
        (map_lines_row_length compressAndMerge compressAndMerge_length n b hlen)]
    calc countNZ (((transposeN n b).map compressAndMerge).map Prod.fst)
        ≤ countNZ (transposeN n b) :=
          countNZ_map_lines_le compressAndMerge compressAndMerge_count_le _
      _ = countNZ b := hb
  · show countNZ (transposeN n (((transposeN n b).map cmRev).map Prod.fst)) ≤ countNZ b
    rw [countNZ_transposeN n _ (map_lines_row_length cmRev cmRev_length n b hlen)]
    calc countNZ (((transposeN n b).map cmRev).map Prod.fst)
        ≤ countNZ (transposeN n b) := countNZ_map_lines_le cmRev cmRev_count_le _
      _ = countNZ b := hb
  · exact countNZ_map_lines_le compressAndMerge compressAndMerge_count_le b
  · exact countNZ_map_lines_le cmRev cmRev_count_le b
  · exact Nat.le_refl _

/-- Writing one entry of a line exchanges the old value's measure for the
new one's. -/
theorem rowSumBy_set (g : Nat → Nat) :
    ∀ (l : List Nat) (i v : Nat), i < l.length →
      rowSumBy g (l.set i v) + g (l.getD i 0) = rowSumBy g l + g v := by
  intro l
  induction l with
  | nil => intro i v h; simp at h
  | cons x xs ih =>
    intro i v h
    cases i with
    | zero =>
      simp only [List.set_cons_zero, List.getD_cons_zero, rowSumBy_cons]
      omega
    | succ i =>
      simp only [List.set_cons_succ, List.getD_cons_succ, rowSumBy_cons]
      have := ih i v (by simpa using h)
      omega

/-- Replacing one row of a board exchanges the old row's measure for the
new one's. -/
theorem boardSumBy_set (g : Nat → Nat) :
    ∀ (bs : Board) (r : Nat) (row : List Nat), r < bs.length →
      boardSumBy g (bs.set r row) + rowSumBy g (bs.getD r []) =
        boardSumBy g bs + rowSumBy g row := by
  intro bs
  induction bs with
  | nil => intro r row h; simp at h
  | cons x xs ih =>
    intro r row h
    cases r with
    | zero =>
      simp only [List.set_cons_zero, List.getD_cons_zero, boardSumBy_cons]
      omega
    | succ r =>
      simp only [List.set_cons_succ, List.getD_cons_succ, boardSumBy_cons]
      have := ih r row (by simpa using h)
      omega

/-- Writing value `v` into an in-bounds empty cell adds exactly the measure
of `v` to the board, for any measure that weighs empty cells as zero. -/
theorem setCell_sumBy (g : Nat → Nat) (hg : g 0 = 0) (b : Board) (r c v : Nat)
    (hr : r < b.length) (hc : c < (b.getD r []).length)
    (h0 : (b.getD r []).getD c 0 = 0) :
    boardSumBy g (setCell b r c v) = boardSumBy g b + g v := by
  have hrow := rowSumBy_set g (b.getD r []) c v hc
  rw [h0, hg, Nat.add_zero] at hrow
  have hb := boardSumBy_set g b r ((b.getD r []).set c v) hr
  rw [setCell]
  omega

theorem rowCount_set_le (l : List Nat) (i v : Nat) :
    rowCountNZ (l.set i v) ≤ rowCountNZ l + 1 := by
  by_cases h : i < l.length
  · have h1 := rowSumBy_set indNZ l i v h
    have h2 := indNZ_le_one v
    simp only [rowCountNZ]
    omega
  · rw [List.set_eq_of_length_le (Nat.le_of_not_lt h)]
    omega

/-- Writing any single cell adds at most one nonzero cell to the board. -/
theorem setCell_count_le (b : Board) (r c v : Nat) :
    countNZ (setCell b r c v) ≤ countNZ b + 1 := by
  by_cases hr : r < b.length
  · have hb := boardSumBy_set indNZ b r ((b.getD r []).set c v) hr
    have hrow := rowCount_set_le (b.getD r []) c v
    simp only [countNZ, rowCountNZ] at *
    rw [setCell]
    omega
  · rw [setCell, List.set_eq_of_length_le (Nat.le_of_not_lt hr)]
    omega

theorem getD_mem {α : Type} (l : List α) (i : Nat) (d : α) (h : i < l.length) :
    l.getD i d ∈ l := by
  rw [List.getD_eq_getElem l d h]
  exact List.getElem_mem h

/-- Every position listed by `emptyPositions` is in bounds and holds a
zero. -/
theorem emptyPositions_spec (b : Board) :
    ∀ p ∈ emptyPositions b,
      p.1 < b.length ∧ p.2 < (b.getD p.1 []).length ∧ (b.getD p.1 []).getD p.2 0 = 0 := by
  intro p hp
  simp only [emptyPositions, List.mem_flatten, List.mem_map] at hp
  obtain ⟨l, ⟨r, hr, rfl⟩, hpl⟩ := hp
  rw [List.mem_range] at hr
  rw [List.mem_filterMap] at hpl
  obtain ⟨c, hc, hif⟩ := hpl
  rw [List.mem_range] at hc
  by_cases h0 : (b.getD r []).getD c 0 = 0
  · rw [if_pos h0] at hif
    injection hif with hif
    rw [← hif]
    exact ⟨hr, hc, h0⟩
  · rw [if_neg h0] at hif
    cases hif

/-- With no empty cell, `_add_random_tile` changes nothing. -/
theorem addRandomTile_full {σ : Type} (impl : RngImpl σ) (s : EnvState σ)
    (h : emptyPositions s.board = []) : addRandomTile impl s = s := by
  simp [addRandomTile, h]

/-- With an empty cell available and a generator meeting the `randint`
contract, a spawn adds exactly 2 or exactly 4 to the board sum. -/
theorem addRandomTile_sum {σ : Type} (impl : RngImpl σ) (hw : impl.Wf) (s : EnvState σ)
    (h : emptyPositions s.board ≠ []) :
    boardSum (addRandomTile impl s).board = boardSum s.board + 2 ∨
    boardSum (addRandomTile impl s).board = boardSum s.board + 4 := by
  have hlen : 0 < (emptyPositions s.board).length := List.length_pos.mpr h
  have hidx := hw (emptyPositions s.board).length s.rng hlen
  have hmem : (emptyPositions s.board).getD
      (impl.randint (emptyPositions s.board).length s.rng).1 (0, 0) ∈
        emptyPositions s.board := getD_mem _ _ _ hidx
  obtain ⟨h1, h2, h3⟩ := emptyPositions_spec s.board _ hmem
  have hne : ¬((emptyPositions s.board).isEmpty = true) := by
    simp [List.isEmpty_iff, h]
  rw [addRandomTile]
  simp only [if_neg hne]
  by_cases hf : (impl.isFour (impl.randint (emptyPositions s.board).length s.rng).2).1 = true
  · right
    simp only [hf, if_pos]
    exact setCell_sumBy (fun v => v) rfl s.board _ _ 4 h1 h2 h3
  · left
    simp only [Bool.not_eq_true] at hf
    simp only [hf, Bool.false_eq_true, if_neg, ite_false]
    exact setCell_sumBy (fun v => v) rfl s.board _ _ 2 h1 h2 h3

/-- With an empty cell available and a generator meeting the `randint`
contract, a spawn adds exactly one nonzero cell. -/
theorem addRandomTile_count {σ : Type} (impl : RngImpl σ) (hw : impl.Wf) (s : EnvState σ)
    (h : emptyPositions s.board ≠ []) :
    countNZ (addRandomTile impl s).board = countNZ s.board + 1 := by
  have hlen : 0 < (emptyPositions s.board).length := List.length_pos.mpr h
  have hidx := hw (emptyPositions s.board).length s.rng hlen
  have hmem : (emptyPositions s.board).getD
      (impl.randint (emptyPositions s.board).length s.rng).1 (0, 0) ∈
        emptyPositions s.board := getD_mem _ _ _ hidx
  obtain ⟨h1, h2, h3⟩ := emptyPositions_spec s.board _ hmem
  have hne : ¬((emptyPositions s.board).isEmpty = true) := by
    simp [List.isEmpty_iff, h]
  rw [addRandomTile]
  simp only [if_neg hne]
  have hv : indNZ (if (impl.isFour (impl.randint (emptyPositions s.board).length s.rng).2).1
      then 4 else 2) = 1 := by
    by_cases hf : (impl.isFour (impl.randint (emptyPositions s.board).length s.rng).2).1 = true <;>
      simp [hf, indNZ]
  have := setCell_sumBy indNZ (by simp [indNZ]) s.board _ _
    (if (impl.isFour (impl.randint (emptyPositions s.board).length s.rng).2).1 then 4 else 2)
    h1 h2 h3
  rw [hv] at this
  exact this

/-- A spawn adds at most one nonzero cell, whatever the generator does. -/
theorem addRandomTile_count_le {σ : Type} (impl : RngImpl σ) (s : EnvState σ) :
    countNZ (addRandomTile impl s).board ≤ countNZ s.board + 1 := by
  rw [addRandomTile]
  by_cases h : (emptyPositions s.board).isEmpty = true
  · rw [if_pos h]
    omega
  · rw [if_neg h]
    exact setCell_count_le s.board _ _ _

/-- C2: the line transform merges only adjacent equal pairs once and never
chains: `[2,2,2,2]` becomes `[4,4,0,0]` with reward 8 (not `[8,0,0,0]`),
and in a line holding three equal values only the first pair in scan order
merges while the third value stays unmerged. -/
theorem merge_non_chaining :
    compressAndMerge [2, 2, 2, 2] = ([4, 4, 0, 0], 8) ∧
    ∀ v : Nat, v ≠ 0 → compressAndMerge [v, v, v, 0] = ([v * 2, v, 0, 0], v * 2) := by
  refine ⟨by decide, fun v hv => ?_⟩
  simp [compressAndMerge, mergeScan, List.filter, hv]

theorem merge_non_chaining_witness :
    compressAndMerge [8, 8, 8, 0] = ([16, 8, 0, 0], 16) :=
  merge_non_chaining.2 8 (by decide)

/-- C4: while the engine is done, `step` with a valid action returns the
current board unchanged, reward 0 and terminated = true, performs no
mutation and no spawn, and the state (hence the done flag) is untouched
until the next reset. -/
theorem step_when_done {σ : Type} (impl : RngImpl σ) (s : EnvState σ) (a : Int)
    (h0 : 0 ≤ a) (h4 : a < 4) (hd : s.done = true) :
    stepE impl s a = Except.ok (s, s.board, 0, true) := by
  simp [stepE, h0, h4, hd]

theorem step_when_done_witness :
    stepE implC ⟨4, [[2, 4], [4, 2]], 5, true⟩ 0 =
      Except.ok (⟨4, [[2, 4], [4, 2]], 5, true⟩, [[2, 4], [4, 2]], 0, true) :=
  step_when_done implC ⟨4, [[2, 4], [4, 2]], 5, true⟩ 0 (by decide) (by decide) rfl

/-- C7: an action outside 0..3 makes `step` fail on the action-space
assertion before any mutation: the call produces the error and no new
state, so the board, generator state and done flag are those of the state
before the call. -/
theorem step_invalid_action {σ : Type} (impl : RngImpl σ) (s : EnvState σ) (a : Int)
    (h : ¬(0 ≤ a ∧ a < 4)) :
    stepE impl s a = Except.error StepErr.invalidAction := by
  simp only [stepE, if_neg h]

theorem step_invalid_action_witness :
    stepE implC ⟨4, [[2, 0], [0, 0]], 0, false⟩ 7 = Except.error StepErr.invalidAction :=
  step_invalid_action implC ⟨4, [[2, 0], [0, 0]], 0, false⟩ 7 (by decide)

/-- C3: from a non-terminal state, when the move transform leaves every
row/column unchanged, `step` returns reward 0, spawns no tile (the
generator state is untouched) and keeps the board bit-identical; only the
done flag is recomputed from the same board. -/
theorem step_noop {σ : Type} (impl : RngImpl σ) (s : EnvState σ) (a : Int)
    (h0 : 0 ≤ a) (h4 : a < 4) (hd : s.done = false)
    (hnoop : (applyMove s.boardSize a.toNat s.board).1 = s.board) :
    stepE impl s a =
      Except.ok ({ s with done := !canMove s.boardSize s.board }, s.board, 0,
        !canMove s.boardSize s.board) := by
  rcases s with ⟨n, b, g, d⟩
  simp only at hd hnoop
  subst hd
  simp [stepE, h0, h4, hnoop]

theorem step_noop_witness :
    stepE implC ⟨4, [[2, 0, 0, 0], [0, 0, 0, 0], [0, 0, 0, 0], [0, 0, 0, 0]], 3, false⟩ 2 =
      Except.ok (⟨4, [[2, 0, 0, 0], [0, 0, 0, 0], [0, 0, 0, 0], [0, 0, 0, 0]], 3, false⟩,
        [[2, 0, 0, 0], [0, 0, 0, 0], [0, 0, 0, 0], [0, 0, 0, 0]], 0, false) := by
  have h := step_noop implC
    ⟨4, [[2, 0, 0, 0], [0, 0, 0, 0], [0, 0, 0, 0], [0, 0, 0, 0]], 3, false⟩ 2
    (by decide) (by decide) rfl (by decide)
  simpa using h

/-- C6 (determinism / reset reproducibility): resetting with a fixed seed
erases all prior state, so two engines of the same board size reset with
the same seed and fed the same action sequence produce identical states and
bit-identical observation/reward/terminated traces. -/
theorem reset_reproducible {σ : Type} (impl : RngImpl σ) (seed : Nat) (acts : List Int)
    (s₁ s₂ : EnvState σ) (h : s₁.boardSize = s₂.boardSize) :
    resetE impl s₁ (some seed) = resetE impl s₂ (some seed) ∧
    runTrace impl (resetE impl s₁ (some seed)).1 acts =
      runTrace impl (resetE impl s₂ (some seed)).1 acts := by
  have key : resetE impl s₁ (some seed) = resetE impl s₂ (some seed) := by
    rcases s₁ with ⟨n₁, b₁, g₁, d₁⟩
    rcases s₂ with ⟨n₂, b₂, g₂, d₂⟩
    simp only at h
    subst h
    rfl
  exact ⟨key, by rw [key]⟩

theorem reset_reproducible_witness :
    resetE implC ⟨2, [[64, 2], [4, 8]], 99, true⟩ (some 42) =
      resetE implC ⟨2, [], 0, false⟩ (some 42) ∧
    runTrace implC (resetE implC ⟨2, [[64, 2], [4, 8]], 99, true⟩ (some 42)).1 [2, 0, 3] =
      runTrace implC (resetE implC ⟨2, [], 0, false⟩ (some 42)).1 [2, 0, 3] :=
  reset_reproducible implC 42 [2, 0, 3] ⟨2, [[64, 2], [4, 8]], 99, true⟩ ⟨2, [], 0, false⟩ rfl

/-- The spec-side terminal condition: no zero cell and no horizontally or
vertically adjacent equal pair, over the n×n index range. -/
def TerminalProp (n : Nat) (b : Board) : Prop :=
  (∀ r, r < n → ∀ c, c < n → getCell b r c ≠ 0) ∧
  (∀ r, r < n → ∀ c, c + 1 < n → getCell b r c ≠ getCell b r (c + 1)) ∧
  (∀ c, c < n → ∀ r, r + 1 < n → getCell b r c ≠ getCell b (r + 1) c)

theorem any_zero_iff (n : Nat) (b : Board) (hlen : b.length = n)
    (hrow : ∀ row ∈ b, row.length = n) :
    (b.any fun row => row.any fun v => v == 0) = true ↔
      ∃ r, r < n ∧ ∃ c, c < n ∧ getCell b r c = 0 := by
  simp only [List.any_eq_true, beq_iff_eq]
  constructor
  · rintro ⟨row, hrowm, v, hv, hv0⟩
    obtain ⟨r, hrb, hre⟩ := List.mem_iff_getElem.mp hrowm
    obtain ⟨c, hcb, hce⟩ := List.mem_iff_getElem.mp hv
    refine ⟨r, by omega, c, ?_, ?_⟩
    · have : row.length = n := hrow row hrowm
      omega
    · rw [getCell, List.getD_eq_getElem b [] hrb, hre, List.getD_eq_getElem row 0 hcb, hce, hv0]
  · rintro ⟨r, hr, c, hc, h0⟩
    have hrb : r < b.length := by omega
    have hrowm : b.getD r [] ∈ b := getD_mem b r [] hrb
    have hcb : c < (b.getD r []).length := by
      rw [hrow (b.getD r []) hrowm]; exact hc
    exact ⟨b.getD r [], hrowm, (b.getD r []).getD c 0, getD_mem _ c 0 hcb, h0⟩

theorem any_rowadj_iff (n : Nat) (b : Board) :
    ((List.range n).any fun r => (List.range (n - 1)).any fun c =>
        getCell b r c == getCell b r (c + 1)) = true ↔
      ∃ r, r < n ∧ ∃ c, c + 1 < n ∧ getCell b r c = getCell b r (c + 1) := by
  simp only [List.any_eq_true, List.mem_range, beq_iff_eq]
  constructor
  · rintro ⟨r, hr, c, hc, he⟩
    exact ⟨r, hr, c, by omega, he⟩
  · rintro ⟨r, hr, c, hc, he⟩
    exact ⟨r, hr, c, by omega, he⟩

theorem any_coladj_iff (n : Nat) (b : Board) :
    ((List.range n).any fun c => (List.range (n - 1)).any fun r =>
        getCell b r c == getCell b (r + 1) c) = true ↔
      ∃ c, c < n ∧ ∃ r, r + 1 < n ∧ getCell b r c = getCell b (r + 1) c := by
  simp only [List.any_eq_true, List.mem_range, beq_iff_eq]
  constructor
  · rintro ⟨c, hc, r, hr, he⟩
    exact ⟨c, hc, r, by omega, he⟩
  · rintro ⟨c, hc, r, hr, he⟩
    exact ⟨c, hc, r, by omega, he⟩

theorem canMove_iff (n : Nat) (b : Board) (hlen : b.length = n)
    (hrow : ∀ row ∈ b, row.length = n) :
    canMove n b = true ↔
      (∃ r, r < n ∧ ∃ c, c < n ∧ getCell b r c = 0) ∨
      (∃ r, r < n ∧ ∃ c, c + 1 < n ∧ getCell b r c = getCell b r (c + 1)) ∨
      (∃ c, c < n ∧ ∃ r, r + 1 < n ∧ getCell b r c = getCell b (r + 1) c) := by
  rw [canMove]
  simp only [Bool.or_eq_true]
  rw [any_zero_iff n b hlen hrow, any_rowadj_iff n b, any_coladj_iff n b]
  exact or_assoc

/-- C1: the terminal flag is true iff the board has no zero cell and no two
4-adjacent equal cells; a board with a zero cell is never terminal; and the
flag returned by a successful non-terminated `step` is exactly this check
on the returned board. -/
theorem step_terminal_iff {σ : Type} (impl : RngImpl σ) (n : Nat) (b : Board)
    (hlen : b.length = n) (hrow : ∀ row ∈ b, row.length = n) :
    ((!canMove n b) = true ↔ TerminalProp n b) ∧
    ((∃ r, r < n ∧ ∃ c, c < n ∧ getCell b r c = 0) → (!canMove n b) = false) ∧
    (∀ (s : EnvState σ) (a : Int) (out : EnvState σ × Board × Nat × Bool),
      s.done = false → stepE impl s a = Except.ok out →
      out.2.2.2 = !canMove out.1.boardSize out.1.board) := by
  have hiff : (!canMove n b) = true ↔ TerminalProp n b := by
    rw [Bool.not_eq_true']
    rw [show (canMove n b = false) ↔ ¬(canMove n b = true) by simp]
    rw [canMove_iff n b hlen hrow]
    rw [TerminalProp]
    push_neg
    rfl
  refine ⟨hiff, fun hz => ?_, ?_⟩
  · cases hcm : (!canMove n b) with
    | false => rfl
    | true =>
      obtain ⟨r, hr, c, hc, h0⟩ := hz
      exact absurd h0 ((hiff.mp hcm).1 r hr c hc)
  · intro s a out hd hstep
    by_cases hv : 0 ≤ a ∧ a < 4
    · unfold stepE at hstep
      rw [if_pos hv, if_neg (by simp [hd])] at hstep
      injection hstep with h2
      rw [← h2]
    · unfold stepE at hstep
      rw [if_neg hv] at hstep
      cases hstep

theorem step_terminal_iff_witness : (!canMove 2 [[0, 2], [2, 4]]) = false :=
  (step_terminal_iff implC 2 [[0, 2], [2, 4]] rfl (by decide)).2.1
    ⟨0, by decide, 0, by decide, rfl⟩

/-- C5 counterexample: on the line `[2,2,0,0]` the transform yields
`[4,0,0,0]` with reward 4; the nonzero output sum is 4, the input sum, and
not 4 + 4 as the claim "input sum plus reward" would require. -/
theorem line_sum_plus_reward_fails :
    ¬(((compressAndMerge [2, 2, 0, 0]).1.filter (fun v => v ≠ 0)).sum =
        ([2, 2, 0, 0] : List Nat).sum + (compressAndMerge [2, 2, 0, 0]).2) := by
  decide

/-- C5 amended: for every input line, the sum of the nonzero values of the
line-transform output equals the sum of the input line exactly; the reward
is the total value of the merged tiles and is not added on top of the line
sum. -/
theorem line_sum_conservation (line : List Nat) :
    ((compressAndMerge line).1.filter (fun v => v ≠ 0)).sum = line.sum := by
  rw [filter_nz_sum, compressAndMerge_sum]

/-- C10: the line transform conserves the line sum exactly (merging two
tiles of value v yields one tile of value 2v); a move conserves the total
board sum on any well-formed board; and a spawn raises the board sum by
exactly 2 or 4 when an empty cell exists, and changes nothing when the
board is full. -/
theorem board_sum_conservation {σ : Type} (impl : RngImpl σ) (hw : impl.Wf) :
    (∀ line : List Nat, (compressAndMerge line).1.sum = line.sum) ∧
    (∀ (n a : Nat) (b : Board), b.length = n → (∀ row ∈ b, row.length = n) →
        boardSum (applyMove n a b).1 = boardSum b) ∧
    (∀ s : EnvState σ, emptyPositions s.board ≠ [] →
        boardSum (addRandomTile impl s).board = boardSum s.board + 2 ∨
        boardSum (addRandomTile impl s).board = boardSum s.board + 4) ∧
    (∀ s : EnvState σ, emptyPositions s.board = [] → addRandomTile impl s = s) :=
  ⟨compressAndMerge_sum,
   fun n a b h1 h2 => applyMove_sum n a b h1 h2,
   fun s h => addRandomTile_sum impl hw s h,
   fun s h => addRandomTile_full impl s h⟩

theorem board_sum_conservation_witness :
    boardSum (applyMove 4 2 [[2, 2, 0, 0], [0, 0, 4, 4], [0, 0, 0, 0], [2, 0, 2, 0]]).1 =
      boardSum [[2, 2, 0, 0], [0, 0, 4, 4], [0, 0, 0, 0], [2, 0, 2, 0]] :=
  (board_sum_conservation implC implC_wf).2.1 4 2
    [[2, 2, 0, 0], [0, 0, 4, 4], [0, 0, 0, 0], [2, 0, 2, 0]] rfl (by decide)

/-- C9 amended: a step never raises the number of nonzero cells by more
than one (the move cannot increase it, the spawn adds at most one). -/
theorem step_count_le {σ : Type} (impl : RngImpl σ) (s : EnvState σ) (a : Int)
    (out : EnvState σ × Board × Nat × Bool)
    (hlen : s.board.length = s.boardSize)
    (hrow : ∀ row ∈ s.board, row.length = s.boardSize)
    (h : stepE impl s a = Except.ok out) :
    countNZ out.1.board ≤ countNZ s.board + 1 := by
  by_cases hv : 0 ≤ a ∧ a < 4
  · unfold stepE at h
    rw [if_pos hv] at h
    by_cases hd : s.done = true
    · rw [if_pos hd] at h
      injection h with h2
      rw [← h2]
      show countNZ s.board ≤ countNZ s.board + 1
      omega
    · rw [if_neg hd] at h
      injection h with h2
      rw [← h2]
      show countNZ (if (applyMove s.boardSize a.toNat s.board).1 = s.board
          then ({ s with board := (applyMove s.boardSize a.toNat s.board).1 } : EnvState σ)
          else addRandomTile impl { s with board := (applyMove s.boardSize a.toNat s.board).1 }).board
        ≤ countNZ s.board + 1
      split
      · next h' =>
        show countNZ (applyMove s.boardSize a.toNat s.board).1 ≤ countNZ s.board + 1
        rw [h']
        omega
      · next h' =>
        calc countNZ (addRandomTile impl
              { s with board := (applyMove s.boardSize a.toNat s.board).1 }).board
            ≤ countNZ (applyMove s.boardSize a.toNat s.board).1 + 1 :=
              addRandomTile_count_le impl _
          _ ≤ countNZ s.board + 1 := by
              have := applyMove_count_le s.boardSize a.toNat s.board hlen hrow
              omega
  · unfold stepE at h
    rw [if_neg hv] at h
    cases h

theorem step_count_le_witness :
    countNZ [[4, 2, 0, 0], [4, 0, 0, 0], [0, 0, 0, 0], [0, 0, 0, 0]] ≤
      countNZ [[2, 2, 0, 0], [2, 2, 0, 0], [0, 0, 0, 0], [0, 0, 0, 0]] + 1 :=
  step_count_le implC ⟨4, [[2, 2, 0, 0], [2, 2, 0, 0], [0, 0, 0, 0], [0, 0, 0, 0]], 0, false⟩ 2
    (⟨4, [[4, 2, 0, 0], [4, 0, 0, 0], [0, 0, 0, 0], [0, 0, 0, 0]], 2, false⟩,
      [[4, 2, 0, 0], [4, 0, 0, 0], [0, 0, 0, 0], [0, 0, 0, 0]], 8, false)
    rfl (by decide) rfl

/-- The draw stream used to refute the nonzero-count monotonicity claim: a
generator that replays a fixed list of indices. -/
def steerStream : List Nat := [0, 0, 0, 0, 2, 0, 12, 0, 0, 0]

/-- A generator replaying `steerStream` (all spawned tiles are 2s). -/
def implSteer : RngImpl Nat where
  seedInit := fun _ => 0
  randint := fun n s => (steerStream.getD s 0 % n, s + 1)
  isFour := fun s => (false, s + 1)

/-- C9 counterexample: a full episode (reset with seed 0, then Down, Down,
Left) in which the third step merges two pairs in one move and spawns a
single tile, so the number of nonzero cells drops from 4 to 3. -/
theorem count_not_monotone :
    runTrace implSteer (resetE implSteer (initE 4 (0 : Nat)) (some 0)).1 [1, 1, 2] =
      [([[0, 0, 2, 0], [0, 0, 0, 0], [0, 0, 0, 0], [2, 2, 0, 0]], 0, false),
       ([[0, 0, 0, 0], [0, 0, 0, 0], [0, 0, 0, 0], [2, 2, 2, 2]], 0, false),
       ([[2, 0, 0, 0], [0, 0, 0, 0], [0, 0, 0, 0], [4, 4, 0, 0]], 8, false)] ∧
    countNZ [[2, 0, 0, 0], [0, 0, 0, 0], [0, 0, 0, 0], [4, 4, 0, 0]] <
      countNZ [[0, 0, 0, 0], [0, 0, 0, 0], [0, 0, 0, 0], [2, 2, 2, 2]] := by
  constructor
  · rfl
  · decide

/-- C8 counterexample: constructing the engine with board size 1 (which is
`≤ 1`) does not fail — it yields a normal state with the 1×1 zero board and
a cleared done flag; the constructor has no validation and no
InvalidConfiguration error exists anywhere in the engine. -/
theorem init_size_one_succeeds :
    (initE 1 (0 : Nat)).board = [[0]] ∧ (initE 1 (0 : Nat)).done = false ∧
    (initE 1 (0 : Nat)).boardSize = 1 := by
  decide

/-- C8 amended: construction never fails: for every board size the
constructor accepts the size and produces the size×size all-zero board with
the done flag cleared. -/
theorem init_no_validation {σ : Type} (n : Nat) (rng0 : σ) :
    (initE n rng0).board = List.replicate n (List.replicate n 0) ∧
    (initE n rng0).done = false ∧ (initE n rng0).boardSize = n :=
  ⟨rfl, rfl, rfl⟩

end Game2048
